import Mathlib

/-!
Shallow embedding of the `naughty` tic-tac-toe rules engine (src/src/lib.rs)
and verification of its specification.

Machine integers: the Rust code works on `u32`; masks are modelled as `Nat`
with an explicit `% 2 ^ 32` where overflow matters (only the left shift in
the candidate computation can overflow).  Fallible code returns `Except`;
the panic arm of `Triple::from` is modelled as `Option.none` and surfaces
as `Except.error ()` from `calculate_winner`.
-/

set_option maxRecDepth 4096

/-- Models Rust `enum Mark { Cross, Naught }`. -/
inductive Mark : Type
  | Cross
  | Naught
deriving DecidableEq, Repr, Fintype

/-- Models `Mark::other`. -/
def Mark.other : Mark → Mark
  | .Cross => .Naught
  | .Naught => .Cross

/-- Models `Mark::to_str`. -/
def Mark.to_str : Mark → String
  | .Cross => "X"
  | .Naught => "O"

/-- Models Rust `enum Square` with its `u32` discriminants (the bit-packed
magic constants). -/
inductive Square : Type
  | A1
  | A2
  | A3
  | B1
  | B2
  | B3
  | C1
  | C2
  | C3
deriving DecidableEq, Repr, Fintype

/-- The `u32` discriminant of each `Square` (Rust `square as u32`),
verbatim from the source. -/
def Square.val : Square → Nat
  | .A1 => 0x80080080
  | .A2 => 0x40008000
  | .A3 => 0x20000808
  | .B1 => 0x08040000
  | .B2 => 0x04004044
  | .B3 => 0x02000400
  | .C1 => 0x00820002
  | .C2 => 0x00402000
  | .C3 => 0x00200220

/-- Models Rust `enum ErrorKind` (single variant, carries the offending
square). -/
inductive ErrorKind : Type
  | IndexError (s : Square)
deriving DecidableEq, Repr

/-- Models Rust `enum Triple` (the 8 winning lines). -/
inductive Triple : Type
  | RowA
  | RowB
  | RowC
  | Col1
  | Col2
  | Col3
  | Diag1
  | Diag2
deriving DecidableEq, Repr, Fintype

/-- Models `impl From<u32> for Triple`; the `panic!` arm is modelled as
`none`. -/
def Triple.fromU32 : Nat → Option Triple
  | 0 => some .RowA
  | 1 => some .RowB
  | 2 => some .RowC
  | 3 => some .Col1
  | 4 => some .Col2
  | 5 => some .Col3
  | 6 => some .Diag1
  | 7 => some .Diag2
  | _ => none

/-- The index of each `Triple`, i.e. the inverse of the total part of
`Triple.fromU32`. -/
def Triple.idx : Triple → Nat
  | .RowA => 0
  | .RowB => 1
  | .RowC => 2
  | .Col1 => 3
  | .Col2 => 4
  | .Col3 => 5
  | .Diag1 => 6
  | .Diag2 => 7

/-- Decidable equality on `Except`, needed to evaluate concrete runs. -/
instance {ε α : Type} [DecidableEq ε] [DecidableEq α] :
    DecidableEq (Except ε α) := fun a b =>
  match a, b with
  | .error x, .error y =>
      if h : x = y then .isTrue (congrArg Except.error h)
      else .isFalse (by intro c; cases c; exact h rfl)
  | .ok x, .ok y =>
      if h : x = y then .isTrue (congrArg Except.ok h)
      else .isFalse (by intro c; cases c; exact h rfl)
  | .error _, .ok _ => .isFalse (by intro c; cases c)
  | .ok _, .error _ => .isFalse (by intro c; cases c)

/-- Models Rust `struct Board { xboard: u32, oboard: u32 }`. -/
structure Board : Type where
  xboard : Nat
  oboard : Nat
deriving DecidableEq, Repr

/-- Models `Board::new` (both masks zero). -/
def Board.new : Board := ⟨0x0, 0x0⟩

/-- The candidate computation `board & (board << 1) & (board >> 1)` on
`u32` (the left shift wraps at 2^32). -/
def cand (board : Nat) : Nat :=
  board &&& ((board <<< 1) % 2 ^ 32) &&& (board >>> 1)

/-- Fuel-based binary length of a natural number (fuel 33 is enough for
any value below 2^33). -/
def bitLenAux : Nat → Nat → Nat
  | 0, _ => 0
  | fuel + 1, n => if n = 0 then 0 else bitLenAux fuel (n / 2) + 1

/-- Models `u32::leading_zeros` for arguments below 2^32. -/
def u32lz (n : Nat) : Nat := 32 - bitLenAux 33 n

/-- Models `Triple::from(candidate.leading_zeros() - 1 >> 2)` applied to a
candidate value; `none` is the panic arm of `Triple::from`. -/
def recoverTriple (candidate : Nat) : Option Triple :=
  Triple.fromU32 ((u32lz candidate - 1) >>> 2)

/-- Models `Board::calculate_winner`; `Except.error ()` models the panic
of `Triple::from` on an out-of-range index. -/
def Board.calculate_winner (self : Board) : Except Unit (Option (Mark × Triple)) :=
  let xboard := cand self.xboard
  let oboard := cand self.oboard
  if 1 ≤ xboard then
    match recoverTriple xboard with
    | some t => .ok (some (Mark.Cross, t))
    | none => .error ()
  else if 1 ≤ oboard then
    match recoverTriple oboard with
    | some t => .ok (some (Mark.Naught, t))
    | none => .error ()
  else
    .ok none

/-- Models `Board::check_index`. -/
def Board.check_index (self : Board) (square : Square) : Except ErrorKind Unit :=
  if square.val &&& (self.xboard ||| self.oboard) = 0 then
    .ok ()
  else
    .error (.IndexError square)

/-- Models `Board::make_move`. -/
def Board.make_move (self : Board) (mark : Mark) (square : Square) :
    Except ErrorKind Board :=
  match self.check_index square with
  | .error e => .error e
  | .ok () =>
      .ok (match mark with
        | .Cross => ⟨self.xboard ||| square.val, self.oboard⟩
        | .Naught => ⟨self.xboard, self.oboard ||| square.val⟩)

/-- The board produced by a successful move: the square's bits OR'd into
the mask belonging to the mark, the other mask unchanged. -/
def placeMark (b : Board) (m : Mark) (s : Square) : Board :=
  match m with
  | .Cross => ⟨b.xboard ||| s.val, b.oboard⟩
  | .Naught => ⟨b.xboard, b.oboard ||| s.val⟩

/-- Models Rust `struct Game`. -/
structure Game : Type where
  current_mark : Mark
  board : Board
deriving DecidableEq, Repr

/-- Models `Game::new`. -/
def Game.new (starting_mark : Mark) : Game := ⟨starting_mark, Board.new⟩

/-- Models `impl Default for Game` (Cross starts, empty board). -/
def Game.default : Game := ⟨Mark.Cross, Board.new⟩

/-- Models `Game::make_move`. -/
def Game.make_move (self : Game) (square : Square) : Except ErrorKind Game :=
  match self.board.make_move self.current_mark square with
  | .error e => .error e
  | .ok current_state => .ok ⟨self.current_mark.other, current_state⟩

/-- Models `Game::calculate_winner` (delegation to the board). -/
def Game.calculate_winner (self : Game) : Except Unit (Option (Mark × Triple)) :=
  self.board.calculate_winner

/-- Run a sequence of board-level moves, stopping at the first failure. -/
def Board.applyMoves : Board → List (Mark × Square) → Except ErrorKind Board
  | b, [] => .ok b
  | b, (m, s) :: rest =>
      match b.make_move m s with
      | .error e => .error e
      | .ok b' => b'.applyMoves rest

/-- Run a sequence of game-level moves, stopping at the first failure. -/
def Game.applyMoves : Game → List Square → Except ErrorKind Game
  | g, [] => .ok g
  | g, s :: rest =>
      match g.make_move s with
      | .error e => .error e
      | .ok g' => g'.applyMoves rest

/-- A board is reachable when some sequence of successful legal moves
builds it from the empty board. -/
def Board.Reachable (b : Board) : Prop :=
  ∃ moves, Board.applyMoves Board.new moves = .ok b

/-- The occupancy mask belonging to a mark (`xboard` for Cross, `oboard`
for Naught). -/
def maskFor (b : Board) : Mark → Nat
  | .Cross => b.xboard
  | .Naught => b.oboard

/-- Bitwise OR of the values of a list of squares. -/
def maskOf : List Square → Nat
  | [] => 0
  | s :: rest => s.val ||| maskOf rest

/-- The squares placed by a given mark, in order, within a move list. -/
def movesFor (m : Mark) : List (Mark × Square) → List Square
  | [] => []
  | (m', s) :: rest => if m' = m then s :: movesFor m rest else movesFor m rest

/-- Spec-side geometry of the 8 winning lines on the 3-by-3 grid (rows
A-C, columns 1-3, `Diag1` the A1-B2-C3 diagonal and `Diag2` the A3-B2-C1
anti-diagonal, as the spec describes them). -/
def tripleSquares : Triple → List Square
  | .RowA => [.A1, .A2, .A3]
  | .RowB => [.B1, .B2, .B3]
  | .RowC => [.C1, .C2, .C3]
  | .Col1 => [.A1, .B1, .C1]
  | .Col2 => [.A2, .B2, .C2]
  | .Col3 => [.A3, .B3, .C3]
  | .Diag1 => [.A1, .B2, .C3]
  | .Diag2 => [.A3, .B2, .C1]

/-- A square counts as occupied in a mask exactly when the code's
`check_index` test sees it (some bit of the square is set in the mask). -/
def occupies (mask : Nat) (s : Square) : Prop := s.val &&& mask ≠ 0

instance (mask : Nat) (s : Square) : Decidable (occupies mask s) :=
  inferInstanceAs (Decidable (s.val &&& mask ≠ 0))

/-- A winning line is complete in a mask when all three of its squares
are occupied there. -/
def completeP (mask : Nat) (t : Triple) : Prop :=
  ∀ s ∈ tripleSquares t, occupies mask s

instance (mask : Nat) (t : Triple) : Decidable (completeP mask t) :=
  inferInstanceAs (Decidable (∀ s ∈ tripleSquares t, occupies mask s))

/-- Index of each square in the fixed enumeration, used to enumerate all
unions of square values. -/
def squareIdx : Square → Nat
  | .A1 => 0
  | .A2 => 1
  | .A3 => 2
  | .B1 => 3
  | .B2 => 4
  | .B3 => 5
  | .C1 => 6
  | .C2 => 7
  | .C3 => 8

/-- The union of the square values selected by the low 9 bits of `k`;
every mask reachable by play is of this form. -/
def subMask (k : Nat) : Nat :=
  (if k.testBit 0 then 0x80080080 else 0) |||
  (if k.testBit 1 then 0x40008000 else 0) |||
  (if k.testBit 2 then 0x20000808 else 0) |||
  (if k.testBit 3 then 0x08040000 else 0) |||
  (if k.testBit 4 then 0x04004044 else 0) |||
  (if k.testBit 5 then 0x02000400 else 0) |||
  (if k.testBit 6 then 0x00820002 else 0) |||
  (if k.testBit 7 then 0x00402000 else 0) |||
  (if k.testBit 8 then 0x00200220 else 0)

/-- Everything the winner computation must satisfy on a single mask that
is a union of square values: the candidate is nonzero exactly when some
line is complete, and in that case the bit scan recovers a complete line
of smallest index (most significant candidate bit). -/
def winProp (m : Nat) : Prop :=
  ((1 ≤ cand m) ↔ ∃ t : Triple, completeP m t) ∧
  (1 ≤ cand m →
    ∃ t : Triple, recoverTriple (cand m) = some t ∧ completeP m t ∧
      ∀ t' : Triple, completeP m t' → t.idx ≤ t'.idx)

instance (m : Nat) : Decidable (winProp m) := by
  unfold winProp
  infer_instance

/-- The list of all 9 squares in enumeration order. -/
def allSquares : List Square :=
  [.A1, .A2, .A3, .B1, .B2, .B3, .C1, .C2, .C3]

theorem subMask_zero : subMask 0 = 0 := by decide

theorem subMask_step : ∀ (s : Square), ∀ k, k < 512 →
    s.val ||| subMask k = subMask (k ||| (1 <<< squareIdx s)) ∧
    (k ||| (1 <<< squareIdx s)) < 512 := by decide

theorem master : ∀ k, k < 512 → winProp (subMask k) := by decide

theorem maskOf_subMask : ∀ l : List Square, ∃ k, k < 512 ∧ maskOf l = subMask k := by
  intro l
  induction l with
  | nil => exact ⟨0, by decide, subMask_zero.symm⟩
  | cons s rest ih =>
      obtain ⟨k, hk, hm⟩ := ih
      obtain ⟨h1, h2⟩ := subMask_step s k hk
      refine ⟨k ||| (1 <<< squareIdx s), h2, ?_⟩
      show s.val ||| maskOf rest = _
      rw [hm]
      exact h1

theorem land_eq_zero_testBit {a b : Nat} (h : a &&& b = 0) (i : Nat) :
    a.testBit i = false ∨ b.testBit i = false := by
  have hb := congrArg (fun z => Nat.testBit z i) h
  simp only [Nat.testBit_land, Nat.zero_testBit] at hb
  cases ha : a.testBit i
  · exact Or.inl rfl
  · cases hc : b.testBit i
    · exact Or.inr rfl
    · rw [ha, hc] at hb
      simp at hb

theorem testBit_land_eq_zero (a b : Nat)
    (h : ∀ i, a.testBit i = false ∨ b.testBit i = false) : a &&& b = 0 := by
  apply Nat.eq_of_testBit_eq
  intro i
  simp only [Nat.testBit_land, Nat.zero_testBit]
  rcases h i with h' | h' <;> simp [h']

theorem land_split {s x o : Nat} (h : s &&& (x ||| o) = 0) :
    s &&& x = 0 ∧ s &&& o = 0 := by
  constructor <;>
    · apply testBit_land_eq_zero
      intro i
      rcases land_eq_zero_testBit h i with h' | h'
      · exact Or.inl h'
      · simp only [Nat.testBit_lor, Bool.or_eq_false_iff] at h'
        first
        | exact Or.inr h'.1
        | exact Or.inr h'.2

theorem land_merge {s x o : Nat} (hx : s &&& x = 0) (ho : s &&& o = 0) :
    s &&& (x ||| o) = 0 := by
  apply testBit_land_eq_zero
  intro i
  rcases land_eq_zero_testBit hx i with h' | h'
  · exact Or.inl h'
  · rcases land_eq_zero_testBit ho i with h'' | h''
    · exact Or.inl h''
    · right
      simp [Nat.testBit_lor, h', h'']

theorem lor_land_zero {a b c : Nat} (ha : a &&& c = 0) (hb : b &&& c = 0) :
    (a ||| b) &&& c = 0 := by
  apply testBit_land_eq_zero
  intro i
  rcases land_eq_zero_testBit ha i with h' | h'
  · rcases land_eq_zero_testBit hb i with h'' | h''
    · left
      simp [Nat.testBit_lor, h', h'']
    · exact Or.inr h''
  · exact Or.inr h'

theorem land_comm_zero {a b : Nat} (h : a &&& b = 0) : b &&& a = 0 := by
  apply testBit_land_eq_zero
  intro i
  rcases land_eq_zero_testBit h i with h' | h'
  · exact Or.inr h'
  · exact Or.inl h'

theorem make_move_ok (b : Board) (m : Mark) (s : Square)
    (h : s.val &&& (b.xboard ||| b.oboard) = 0) :
    b.make_move m s = .ok (placeMark b m s) := by
  cases m <;> simp [Board.make_move, Board.check_index, placeMark, h]

theorem make_move_err (b : Board) (m : Mark) (s : Square)
    (h : s.val &&& (b.xboard ||| b.oboard) ≠ 0) :
    b.make_move m s = .error (.IndexError s) := by
  simp [Board.make_move, Board.check_index, h]

theorem make_move_ok_inv {b : Board} {m : Mark} {s : Square} {b' : Board}
    (h : b.make_move m s = .ok b') :
    s.val &&& (b.xboard ||| b.oboard) = 0 ∧ b' = placeMark b m s := by
  by_cases hc : s.val &&& (b.xboard ||| b.oboard) = 0
  · refine ⟨hc, ?_⟩
    rw [make_move_ok b m s hc] at h
    injection h with h
    exact h.symm
  · rw [make_move_err b m s hc] at h
    cases h

theorem applyMoves_ok_masks : ∀ (ms : List (Mark × Square)) (b0 b : Board),
    Board.applyMoves b0 ms = .ok b →
    b.xboard = b0.xboard ||| maskOf (movesFor .Cross ms) ∧
    b.oboard = b0.oboard ||| maskOf (movesFor .Naught ms) := by
  intro ms
  induction ms with
  | nil =>
      intro b0 b h
      simp only [Board.applyMoves] at h
      injection h with h
      subst h
      simp [movesFor, maskOf]
  | cons p rest ih =>
      intro b0 b h
      obtain ⟨m, s⟩ := p
      rw [Board.applyMoves] at h
      rcases hm : b0.make_move m s with e | b1 <;> rw [hm] at h
      · cases h
      · simp only at h
        obtain ⟨hc, hb1⟩ := make_move_ok_inv hm
        obtain ⟨ihx, iho⟩ := ih b1 b h
        cases m with
        | Cross =>
            subst hb1
            simp only [placeMark] at ihx iho
            refine ⟨?_, ?_⟩
            · rw [ihx]
              simp [movesFor, maskOf, Nat.lor_assoc]
            · rw [iho]
              simp [movesFor]
        | Naught =>
            subst hb1
            simp only [placeMark] at ihx iho
            refine ⟨?_, ?_⟩
            · rw [ihx]
              simp [movesFor]
            · rw [iho]
              simp [movesFor, maskOf, Nat.lor_assoc]

theorem make_move_disjoint {b : Board} {m : Mark} {s : Square} {b' : Board}
    (hd : b.xboard &&& b.oboard = 0) (h : b.make_move m s = .ok b') :
    b'.xboard &&& b'.oboard = 0 := by
  obtain ⟨hc, hb⟩ := make_move_ok_inv h
  obtain ⟨hcx, hco⟩ := land_split hc
  cases m with
  | Cross =>
      subst hb
      simp only [placeMark]
      exact lor_land_zero hd hco
  | Naught =>
      subst hb
      simp only [placeMark]
      exact land_merge hd (land_comm_zero hcx)

theorem applyMoves_disjoint : ∀ (ms : List (Mark × Square)) (b0 b : Board),
    b0.xboard &&& b0.oboard = 0 →
    Board.applyMoves b0 ms = .ok b → b.xboard &&& b.oboard = 0 := by
  intro ms
  induction ms with
  | nil =>
      intro b0 b hd h
      simp only [Board.applyMoves] at h
      injection h with h
      subst h
      exact hd
  | cons p rest ih =>
      intro b0 b hd h
      obtain ⟨m, s⟩ := p
      rw [Board.applyMoves] at h
      rcases hm : b0.make_move m s with e | b1 <;> rw [hm] at h
      · cases h
      · simp only at h
        exact ih b1 b (make_move_disjoint hd hm) h

theorem reachable_masks {b : Board} (h : b.Reachable) :
    b.xboard &&& b.oboard = 0 ∧
    (∃ l, b.xboard = maskOf l) ∧ (∃ l, b.oboard = maskOf l) := by
  obtain ⟨ms, hms⟩ := h
  obtain ⟨hx, ho⟩ := applyMoves_ok_masks ms Board.new b hms
  refine ⟨applyMoves_disjoint ms Board.new b (by decide) hms,
    ⟨movesFor .Cross ms, ?_⟩, ⟨movesFor .Naught ms, ?_⟩⟩
  · simpa [Board.new] using hx
  · simpa [Board.new] using ho

theorem reachable_winProp {b : Board} (h : b.Reachable) :
    winProp b.xboard ∧ winProp b.oboard := by
  obtain ⟨_, ⟨lx, hx⟩, ⟨lo, ho⟩⟩ := reachable_masks h
  constructor
  · obtain ⟨k, hk, he⟩ := maskOf_subMask lx
    rw [hx, he]
    exact master k hk
  · obtain ⟨k, hk, he⟩ := maskOf_subMask lo
    rw [ho, he]
    exact master k hk

theorem calculate_winner_cases (b : Board) (hx : winProp b.xboard) (ho : winProp b.oboard) :
    (∃ t, b.calculate_winner = .ok (some (Mark.Cross, t)) ∧ completeP b.xboard t ∧
      ∀ t' : Triple, completeP b.xboard t' → t.idx ≤ t'.idx) ∨
    (cand b.xboard = 0 ∧ ∃ t, b.calculate_winner = .ok (some (Mark.Naught, t)) ∧
      completeP b.oboard t ∧ ∀ t' : Triple, completeP b.oboard t' → t.idx ≤ t'.idx) ∨
    (cand b.xboard = 0 ∧ cand b.oboard = 0 ∧ b.calculate_winner = .ok none) := by
  by_cases h1 : 1 ≤ cand b.xboard
  · obtain ⟨t, hrec, hcomp, hmin⟩ := hx.2 h1
    left
    refine ⟨t, ?_, hcomp, hmin⟩
    simp only [Board.calculate_winner]
    rw [if_pos h1, hrec]
  · have hx0 : cand b.xboard = 0 := by omega
    by_cases h2 : 1 ≤ cand b.oboard
    · obtain ⟨t, hrec, hcomp, hmin⟩ := ho.2 h2
      right; left
      refine ⟨hx0, t, ?_, hcomp, hmin⟩
      simp only [Board.calculate_winner]
      rw [if_neg h1, if_pos h2, hrec]
    · right; right
      have ho0 : cand b.oboard = 0 := by omega
      refine ⟨hx0, ho0, ?_⟩
      simp only [Board.calculate_winner]
      rw [if_neg h1, if_neg h2]

theorem bitLenAux_le : ∀ (fuel k n : Nat), n < 2 ^ k → k ≤ fuel → bitLenAux fuel n ≤ k := by
  intro fuel
  induction fuel with
  | zero =>
      intro k n _ _
      simp [bitLenAux]
  | succ fuel ih =>
      intro k n hn hk
      rw [bitLenAux]
      by_cases h0 : n = 0
      · simp [h0]
      · rw [if_neg h0]
        cases k with
        | zero =>
            simp at hn
            omega
        | succ k' =>
            have hdiv : n / 2 < 2 ^ k' := by
              rw [Nat.div_lt_iff_lt_mul (by norm_num)]
              calc n < 2 ^ (k' + 1) := hn
                _ = 2 ^ k' * 2 := by ring
            have := ih k' (n / 2) hdiv (by omega)
            omega

theorem bitLenAux_pos (fuel n : Nat) (hn : 1 ≤ n) (hf : 1 ≤ fuel) :
    1 ≤ bitLenAux fuel n := by
  cases fuel with
  | zero => omega
  | succ fuel =>
      rw [bitLenAux, if_neg (by omega)]
      omega

theorem cand_lt_two_pow {b : Nat} (h : b < 2 ^ 32) : cand b < 2 ^ 31 := by
  have h1 : cand b ≤ b >>> 1 := Nat.and_le_right
  have h2 : b >>> 1 = b / 2 := Nat.shiftRight_one b
  have h3 : b / 2 < 2 ^ 31 := by
    rw [Nat.div_lt_iff_lt_mul (by norm_num)]
    calc b < 2 ^ 32 := h
      _ = 2 ^ 31 * 2 := by norm_num
  omega

theorem candidate_safe {c : Nat} (h1 : 1 ≤ c) (h2 : c < 2 ^ 31) :
    1 ≤ u32lz c ∧ (u32lz c - 1) >>> 2 ≤ 7 ∧ ∃ t, recoverTriple c = some t := by
  have hle : bitLenAux 33 c ≤ 31 := bitLenAux_le 33 31 c h2 (by omega)
  have hpos : 1 ≤ bitLenAux 33 c := bitLenAux_pos 33 c h1 (by omega)
  have hz1 : 1 ≤ u32lz c := by unfold u32lz; omega
  have hz2 : u32lz c ≤ 31 := by unfold u32lz; omega
  have hidx : (u32lz c - 1) >>> 2 ≤ 7 := by
    rw [Nat.shiftRight_eq_div_pow]
    have h30 : u32lz c - 1 ≤ 30 := by omega
    calc (u32lz c - 1) / 2 ^ 2 ≤ 30 / 2 ^ 2 := Nat.div_le_div_right h30
      _ = 7 := by norm_num
  refine ⟨hz1, hidx, ?_⟩
  have h8 : ∀ n, n ≤ 7 → ∃ t, Triple.fromU32 n = some t := by decide
  exact h8 _ hidx

theorem countP_three {α : Type} (p : α → Bool) (a b c : α) :
    List.countP p [a, b, c] ≤ 2 ↔ ¬(p a = true ∧ p b = true ∧ p c = true) := by
  cases ha : p a <;> cases hb : p b <;> cases hc : p c <;>
    simp [List.countP_cons, List.countP_nil, ha, hb, hc]

theorem atMostTwo_iff (m : Nat) (t : Triple) :
    List.countP (fun s => decide (occupies m s)) (tripleSquares t) ≤ 2 ↔
    ¬ completeP m t := by
  cases t <;>
    · simp only [tripleSquares]
      rw [countP_three]
      apply not_congr
      simp [completeP, tripleSquares, occupies, and_assoc]

/-- C1 counterexample: the board reached by the legal alternating sequence
X:A1 O:B1 X:A2 O:B2 X:A3 O:B3 has Naught's RowB fully occupied, yet
`calculate_winner` does not return (Naught, RowB) — it reports Cross's
RowA instead, since play legally continues after a win and Cross is
checked first.  This refutes the claim's "exactly when" equivalence. -/
theorem C1_counterexample :
    Board.Reachable (Board.mk 0xE0088888 0x0E044444) ∧
    completeP (Board.mk 0xE0088888 0x0E044444).oboard Triple.RowB ∧
    Board.calculate_winner (Board.mk 0xE0088888 0x0E044444) ≠
      .ok (some (Mark.Naught, Triple.RowB)) := by
  refine ⟨⟨[(Mark.Cross, Square.A1), (Mark.Naught, Square.B1), (Mark.Cross, Square.A2),
    (Mark.Naught, Square.B2), (Mark.Cross, Square.A3), (Mark.Naught, Square.B3)], ?_⟩, ?_, ?_⟩
  · decide
  · decide
  · decide

/-- C1 (amended): for every reachable Board, any (mark, triple) returned by
`calculate_winner` has all three squares of that triple occupied by that
mark; whenever some triple is fully occupied by some mark the function
returns such a pair; and when for both marks at most two squares of every
one of the 8 triples are occupied it returns nothing.  (The candidate
computation creates no false positives.) -/
theorem C1_winner_correct (B : Board) (h : B.Reachable) :
    (∀ mk t, B.calculate_winner = .ok (some (mk, t)) → completeP (maskFor B mk) t) ∧
    ((∃ mk t, completeP (maskFor B mk) t) →
      ∃ mk t, B.calculate_winner = .ok (some (mk, t)) ∧ completeP (maskFor B mk) t) ∧
    ((∀ mk : Mark, ∀ t : Triple,
        List.countP (fun s => decide (occupies (maskFor B mk) s)) (tripleSquares t) ≤ 2) →
      B.calculate_winner = .ok none) := by
  obtain ⟨hx, ho⟩ := reachable_winProp h
  refine ⟨?_, ?_, ?_⟩
  · intro mk t hw
    rcases calculate_winner_cases B hx ho with ⟨t0, hw0, hc0, -⟩ | ⟨-, t0, hw0, hc0, -⟩ |
      ⟨-, -, hw0⟩
    · rw [hw0] at hw
      injection hw with hw
      injection hw with hw
      injection hw with h1 h2
      subst h1
      subst h2
      simpa [maskFor] using hc0
    · rw [hw0] at hw
      injection hw with hw
      injection hw with hw
      injection hw with h1 h2
      subst h1
      subst h2
      simpa [maskFor] using hc0
    · rw [hw0] at hw
      injection hw with hw
      cases hw
  · rintro ⟨mk, t, hcm⟩
    rcases calculate_winner_cases B hx ho with ⟨t0, hw0, hc0, -⟩ | ⟨-, t0, hw0, hc0, -⟩ |
      ⟨hx0, ho0, -⟩
    · exact ⟨.Cross, t0, hw0, by simpa [maskFor] using hc0⟩
    · exact ⟨.Naught, t0, hw0, by simpa [maskFor] using hc0⟩
    · exfalso
      cases mk with
      | Cross =>
          have := hx.1.mpr ⟨t, by simpa [maskFor] using hcm⟩
          omega
      | Naught =>
          have := ho.1.mpr ⟨t, by simpa [maskFor] using hcm⟩
          omega
  · intro hcount
    have hnx : ¬ ∃ t : Triple, completeP B.xboard t := by
      rintro ⟨t, ht⟩
      exact (atMostTwo_iff B.xboard t).mp
        (by simpa [maskFor] using hcount Mark.Cross t) ht
    have hno : ¬ ∃ t : Triple, completeP B.oboard t := by
      rintro ⟨t, ht⟩
      exact (atMostTwo_iff B.oboard t).mp
        (by simpa [maskFor] using hcount Mark.Naught t) ht
    rcases calculate_winner_cases B hx ho with ⟨t0, hw0, hc0, -⟩ | ⟨-, t0, hw0, hc0, -⟩ |
      ⟨-, -, hw0⟩
    · exact absurd ⟨t0, hc0⟩ hnx
    · exact absurd ⟨t0, hc0⟩ hno
    · exact hw0

/-- C1 witness: on the (reachable) empty board, where every triple has at
most two occupied squares, `calculate_winner` returns nothing. -/
theorem C1_witness : Board.calculate_winner Board.new = .ok none :=
  (C1_winner_correct Board.new ⟨[], rfl⟩).2.2 (by decide)

/-- C2: if no bit of the square is set in either mask, `make_move`
succeeds and the returned Board is the old one with exactly the square's
bits OR'd into the acting mark's mask, the other mask unchanged. -/
theorem C2_make_move_success (B : Board) (mk : Mark) (s : Square)
    (hx : s.val &&& B.xboard = 0) (ho : s.val &&& B.oboard = 0) :
    B.make_move mk s = .ok (placeMark B mk s) ∧
    maskFor (placeMark B mk s) mk = maskFor B mk ||| s.val ∧
    maskFor (placeMark B mk s) mk.other = maskFor B mk.other := by
  refine ⟨make_move_ok B mk s (land_merge hx ho), ?_, ?_⟩ <;>
    cases mk <;> simp [placeMark, maskFor, Mark.other]

/-- C2 witness: placing Cross on A1 of the empty board succeeds and sets
exactly A1's bits in `xboard`. -/
theorem C2_witness :
    Board.new.make_move Mark.Cross Square.A1 = .ok (placeMark Board.new Mark.Cross Square.A1) ∧
    maskFor (placeMark Board.new Mark.Cross Square.A1) Mark.Cross =
      maskFor Board.new Mark.Cross ||| Square.val Square.A1 ∧
    maskFor (placeMark Board.new Mark.Cross Square.A1) (Mark.other Mark.Cross) =
      maskFor Board.new (Mark.other Mark.Cross) :=
  C2_make_move_success Board.new Mark.Cross Square.A1 (by decide) (by decide)

/-- C3: moving onto an occupied square fails with the occupied-square
error carrying exactly that square, both at Board level and propagated
unchanged through `Game::make_move`.  (Immutability of the caller's Board
is inherent in the embedding: `make_move` is a pure function of `self`.) -/
theorem C3_occupied_error (B : Board) (mk : Mark) (s : Square)
    (h : s.val &&& (B.xboard ||| B.oboard) ≠ 0) :
    B.make_move mk s = .error (.IndexError s) ∧
    (Game.mk mk B).make_move s = .error (.IndexError s) := by
  have h1 := make_move_err B mk s h
  exact ⟨h1, by simp [Game.make_move, h1]⟩

/-- C3 witness: after Cross occupies B2, another move on B2 fails with the
occupied-square error naming B2, at both levels. -/
theorem C3_witness :
    (Board.mk 0x04004044 0x0).make_move Mark.Naught Square.B2 =
      .error (.IndexError Square.B2) ∧
    (Game.mk Mark.Naught (Board.mk 0x04004044 0x0)).make_move Square.B2 =
      .error (.IndexError Square.B2) :=
  C3_occupied_error (Board.mk 0x04004044 0x0) Mark.Naught Square.B2 (by decide)

/-- C4: every board built from the empty board by successful moves has
disjoint masks, and each mask is exactly the OR of the values of the
squares placed by that mark (so every set bit belongs to the pattern of
some placed square — no stray bits). -/
theorem C4_reachable_invariant (ms : List (Mark × Square)) (B : Board)
    (h : Board.applyMoves Board.new ms = .ok B) :
    B.xboard &&& B.oboard = 0 ∧
    B.xboard = maskOf (movesFor Mark.Cross ms) ∧
    B.oboard = maskOf (movesFor Mark.Naught ms) := by
  obtain ⟨hx', ho'⟩ := applyMoves_ok_masks ms Board.new B h
  exact ⟨applyMoves_disjoint ms Board.new B (by decide) h,
    by simpa [Board.new] using hx', by simpa [Board.new] using ho'⟩

/-- C4 witness: after X:B2 then O:A2 the invariant holds concretely. -/
theorem C4_witness :
    (Board.mk 0x04004044 0x40008000).xboard &&& (Board.mk 0x04004044 0x40008000).oboard = 0 ∧
    (Board.mk 0x04004044 0x40008000).xboard =
      maskOf (movesFor Mark.Cross [(Mark.Cross, Square.B2), (Mark.Naught, Square.A2)]) ∧
    (Board.mk 0x04004044 0x40008000).oboard =
      maskOf (movesFor Mark.Naught [(Mark.Cross, Square.B2), (Mark.Naught, Square.A2)]) :=
  C4_reachable_invariant [(Mark.Cross, Square.B2), (Mark.Naught, Square.A2)]
    (Board.mk 0x04004044 0x40008000) (by decide)

/-- C5: a successful `Game::make_move` flips `current_mark` via `other`
and its board is the delegated board move's result; a failed one
propagates the board's occupied-square error unchanged (and, the
embedding being purely functional, produces no new Game and leaves the
caller's Game untouched). -/
theorem C5_game_make_move (G : Game) (s : Square) :
    (∀ G', G.make_move s = .ok G' →
      G'.current_mark = G.current_mark.other ∧
      G.board.make_move G.current_mark s = .ok G'.board) ∧
    (∀ e, G.make_move s = .error e →
      G.board.make_move G.current_mark s = .error e ∧ e = .IndexError s) := by
  constructor
  · intro G' hG
    unfold Game.make_move at hG
    rcases hm : G.board.make_move G.current_mark s with e | b1 <;> rw [hm] at hG
    · cases hG
    · simp only at hG
      injection hG with hG
      subst hG
      exact ⟨rfl, rfl⟩
  · intro e hG
    unfold Game.make_move at hG
    rcases hm : G.board.make_move G.current_mark s with e' | b1 <;> rw [hm] at hG
    · simp only at hG
      injection hG with hG
      subst hG
      refine ⟨rfl, ?_⟩
      by_cases hc : s.val &&& (G.board.xboard ||| G.board.oboard) = 0
      · rw [make_move_ok _ _ _ hc] at hm
        cases hm
      · rw [make_move_err _ _ _ hc] at hm
        injection hm with hm
        exact hm.symm
    · cases hG

/-- C5 witness: from the default Game a move on A2 succeeds, the turn
flips from Cross to Naught, and the board is the delegated board-level
result. -/
theorem C5_witness :
    (Game.mk Mark.Naught (Board.mk 0x40008000 0x0)).current_mark =
      Game.default.current_mark.other ∧
    Game.default.board.make_move Game.default.current_mark Square.A2 =
      .ok (Game.mk Mark.Naught (Board.mk 0x40008000 0x0)).board :=
  (C5_game_make_move Game.default Square.A2).1
    (Game.mk Mark.Naught (Board.mk 0x40008000 0x0)) (by decide)

/-- C6: the Square constants realize the documented layout.  Bit positions
are counted from the most significant end (position p from the MSB of a
`u32` is `testBit (31 - p)`), the convention fixed by the `leading_zeros`
recovery.  For each triple of index `i` and each offset `j < 3`, exactly
one Square has the bit at MSB-position `4 * i + j` set — a dedicated bit —
and it is one of that triple's three squares; and for a mask containing
exactly one complete triple, `Triple::from((leading_zeros(candidate) - 1)
>> 2)` recovers precisely that Triple. -/
theorem C6_bit_layout :
    (∀ (t : Triple) (j : Fin 3), ∃ s : Square, s ∈ tripleSquares t ∧
      List.filter (fun s' => s'.val.testBit (31 - (4 * t.idx + j.val))) allSquares = [s]) ∧
    (∀ t : Triple, 1 ≤ cand (maskOf (tripleSquares t)) ∧
      recoverTriple (cand (maskOf (tripleSquares t))) = some t) := by
  constructor
  · decide
  · decide

/-- C7: on reachable boards, if both marks have complete triples the
winner named is Cross (checked first); and whatever (mark, triple) is
returned, every other complete triple of that mark has a candidate bit no
more significant (its bit position `30 - 4 * idx` is no higher), i.e. only
the highest-order complete triple is reported. -/
theorem C7_simultaneous_priority (B : Board) (h : B.Reachable) :
    ((∃ t, completeP B.xboard t) ∧ (∃ t, completeP B.oboard t) →
      ∃ t, B.calculate_winner = .ok (some (Mark.Cross, t))) ∧
    (∀ mk t, B.calculate_winner = .ok (some (mk, t)) →
      ∀ t', completeP (maskFor B mk) t' →
        30 - 4 * Triple.idx t' ≤ 30 - 4 * Triple.idx t) := by
  obtain ⟨hx, ho⟩ := reachable_winProp h
  constructor
  · rintro ⟨⟨tx, htx⟩, -⟩
    have h1 : 1 ≤ cand B.xboard := hx.1.mpr ⟨tx, htx⟩
    obtain ⟨t, hrec, -, -⟩ := hx.2 h1
    refine ⟨t, ?_⟩
    simp only [Board.calculate_winner]
    rw [if_pos h1, hrec]
  · intro mk t hw t' hc'
    have hb : ∀ u : Triple, u.idx ≤ 7 := by decide
    rcases calculate_winner_cases B hx ho with ⟨t0, hw0, -, hmin⟩ | ⟨-, t0, hw0, -, hmin⟩ |
      ⟨-, -, hw0⟩
    · rw [hw0] at hw
      injection hw with hw
      injection hw with hw
      injection hw with h1 h2
      subst h1
      subst h2
      have hle := hmin t' (by simpa [maskFor] using hc')
      have b1 := hb t0
      have b2 := hb t'
      omega
    · rw [hw0] at hw
      injection hw with hw
      injection hw with hw
      injection hw with h1 h2
      subst h1
      subst h2
      have hle := hmin t' (by simpa [maskFor] using hc')
      have b1 := hb t0
      have b2 := hb t'
      omega
    · rw [hw0] at hw
      injection hw with hw
      cases hw

/-- C7 witness: on the reachable full board where Cross completed both
RowA and Col1, the reported triple is RowA and Col1's candidate bit is no
more significant. -/
theorem C7_witness :
    30 - 4 * Triple.idx Triple.Col1 ≤ 30 - 4 * Triple.idx Triple.RowA :=
  (C7_simultaneous_priority (Board.mk 0xE88E888A 0x06606664)
    ⟨[(Mark.Cross, Square.A1), (Mark.Naught, Square.B2), (Mark.Cross, Square.A2),
      (Mark.Naught, Square.B3), (Mark.Cross, Square.A3), (Mark.Naught, Square.C2),
      (Mark.Cross, Square.B1), (Mark.Naught, Square.C3), (Mark.Cross, Square.C1)],
      by decide⟩).2
    Mark.Cross Triple.RowA (by decide) Triple.Col1 (by decide)

/-- C8: from the default Game, the seven moves B2 A2 B1 B3 C1 C3 A3 all
succeed and the resulting Game's winner is (Cross, Diag2), the A3-B2-C1
anti-diagonal — the scenario of the source test. -/
theorem C8_scenario :
    (Game.applyMoves Game.default
      [Square.B2, Square.A2, Square.B1, Square.B3, Square.C1, Square.C3, Square.A3]).map
      (fun g => g.calculate_winner) =
    .ok (.ok (some (Mark.Cross, Triple.Diag2))) := by
  decide

/-- C9: for arbitrary u32 masks (reachable or not) the candidate value
never has bit 31 set, so inside either winner branch `leading_zeros` is at
least 1 (no underflow in `leading_zeros() - 1`), the recovered index is at
most 7, and `calculate_winner` never reaches the panic arm of
`Triple::from`. -/
theorem C9_no_panic (x o : Nat) (hx : x < 2 ^ 32) (ho : o < 2 ^ 32) :
    (cand x).testBit 31 = false ∧ (cand o).testBit 31 = false ∧
    (cand x = 0 ∨ (1 ≤ u32lz (cand x) ∧ (u32lz (cand x) - 1) >>> 2 ≤ 7)) ∧
    (cand o = 0 ∨ (1 ≤ u32lz (cand o) ∧ (u32lz (cand o) - 1) >>> 2 ≤ 7)) ∧
    Board.calculate_winner ⟨x, o⟩ ≠ .error () := by
  have hxlt := cand_lt_two_pow hx
  have holt := cand_lt_two_pow ho
  have hxcase : cand x = 0 ∨ (1 ≤ u32lz (cand x) ∧ (u32lz (cand x) - 1) >>> 2 ≤ 7) := by
    by_cases h1 : 1 ≤ cand x
    · obtain ⟨ha, hbb, -⟩ := candidate_safe h1 hxlt
      exact Or.inr ⟨ha, hbb⟩
    · exact Or.inl (by omega)
  have hocase : cand o = 0 ∨ (1 ≤ u32lz (cand o) ∧ (u32lz (cand o) - 1) >>> 2 ≤ 7) := by
    by_cases h2 : 1 ≤ cand o
    · obtain ⟨ha, hbb, -⟩ := candidate_safe h2 holt
      exact Or.inr ⟨ha, hbb⟩
    · exact Or.inl (by omega)
  refine ⟨Nat.testBit_lt_two_pow hxlt, Nat.testBit_lt_two_pow holt, hxcase, hocase, ?_⟩
  by_cases h1 : 1 ≤ cand x
  · obtain ⟨-, -, t, hrec⟩ := candidate_safe h1 hxlt
    simp only [Board.calculate_winner]
    rw [if_pos h1, hrec]
    simp
  · by_cases h2 : 1 ≤ cand o
    · obtain ⟨-, -, t, hrec⟩ := candidate_safe h2 holt
      simp only [Board.calculate_winner]
      rw [if_neg h1, if_pos h2, hrec]
      simp
    · simp only [Board.calculate_winner]
      rw [if_neg h1, if_neg h2]
      simp

/-- C9 witness: the all-ones xboard (an illegal state) together with an
arbitrary oboard never panics. -/
theorem C9_witness :
    (cand 0xFFFFFFFF).testBit 31 = false ∧ (cand 0x12345678).testBit 31 = false ∧
    (cand 0xFFFFFFFF = 0 ∨
      (1 ≤ u32lz (cand 0xFFFFFFFF) ∧ (u32lz (cand 0xFFFFFFFF) - 1) >>> 2 ≤ 7)) ∧
    (cand 0x12345678 = 0 ∨
      (1 ≤ u32lz (cand 0x12345678) ∧ (u32lz (cand 0x12345678) - 1) >>> 2 ≤ 7)) ∧
    Board.calculate_winner ⟨0xFFFFFFFF, 0x12345678⟩ ≠ .error () :=
  C9_no_panic 0xFFFFFFFF 0x12345678 (by decide) (by decide)

/-- C10: `other` is an involution on Mark and swaps Cross and Naught. -/
theorem C10_mark_involution :
    (∀ m : Mark, m.other.other = m) ∧
    Mark.Cross.other = Mark.Naught ∧ Mark.Naught.other = Mark.Cross := by
  decide
